import Mathlib

/-!
Verification of the symbol-resolution and cross-reference engine of
mdbook-protobuf (`src/mdbook-protobuf/src/links.rs`, `src/mdbook-protobuf/src/view.rs`).

Rust `String`/`&str` values are embedded as `List Char` (`Str`), so that every
operation is executable and provable by computation.  Sets of known package
names (`HashSet<String>`) are embedded as `List Str`; since package lookup only
filters and maximises over the set, the list order is observable only through
`max_by_key`, whose tie behaviour is irrelevant here because two string
prefixes of the same string with equal length are equal.  The shared
`HashMap<SymbolLink, Vec<Backlink>>` is embedded as an association list with
`entry`/`or_default`/`push` operations.
-/

abbrev Str := List Char

namespace MdbookProtobuf

/-- Bridge from the executable `List.isPrefixOf` (Rust `str::starts_with`)
to the propositional `List.IsPrefix`. -/
theorem isPrefixOf_iff {α : Type} [BEq α] [LawfulBEq α] {l₁ l₂ : List α} :
    l₁.isPrefixOf l₂ = true ↔ l₁ <+: l₂ :=
  List.isPrefixOf_iff_prefix

/-- Bridge from the executable `List.isSuffixOf` (Rust `slice::ends_with`)
to the propositional `List.IsSuffix`. -/
theorem isSuffixOf_iff {α : Type} [BEq α] [LawfulBEq α] {l₁ l₂ : List α} :
    l₁.isSuffixOf l₂ = true ↔ l₁ <:+ l₂ :=
  List.isSuffixOf_iff_suffix

/-- Rust `str::replace(pat, rep)` for a single-character pattern,
as used in `links.rs` (`path.replace(".", "/")`, `path.replace('/', ".")`). -/
def replaceChar (pat rep : Char) (s : Str) : Str :=
  s.map (fun c => if c = pat then rep else c)

/-- Rust `str::split_once(sep)`: splits at the first occurrence of `sep`,
returning the parts before and after it, or `none` when `sep` does not occur. -/
def splitOnce (sep : Str) : Str → Option (Str × Str)
  | [] => if sep.isPrefixOf ([] : Str) then some ([], []) else none
  | c :: rest =>
    if sep.isPrefixOf (c :: rest) then some ([], (c :: rest).drop sep.length)
    else (splitOnce sep rest).map (fun pr => (c :: pr.1, pr.2))

/-- Rust `str::split(c)`: the list of segments between occurrences of `c`
(with empty segments preserved, e.g. a leading separator yields a leading
empty segment). -/
def splitOnChar (c : Char) : Str → List Str
  | [] => [[]]
  | x :: xs =>
    if x = c then [] :: splitOnChar c xs
    else
      match splitOnChar c xs with
      | [] => [[x]]
      | p :: ps => (x :: p) :: ps

/-- Rust `format!("{}", n)` for an unsigned counter. -/
def natToStr (n : Nat) : Str :=
  Nat.toDigits 10 n

/-- Rust `Vec::join("\n")`. -/
def joinLines (xs : List Str) : Str :=
  List.intercalate ['\n'] xs

/-- The Symbol Identity type, `SymbolLink` in `links.rs` (lines 54-62).
The Rust struct derives `Clone, Eq, Hash, PartialEq`; the derived equality
compares every field, which the Lean structure equality mirrors. -/
structure SymbolLink where
  symbol : Str
  path : Str
  property : Option Str
  label_override : Option Str
  own_id : Option Str
deriving DecidableEq, Repr

namespace SymbolLink

/-- `SymbolLink::split_property` (links.rs 87-92): split the raw name at the
first `::` into the core name and the optional property. -/
def split_property (fqsl : Str) : Str × Option Str :=
  match splitOnce (':' :: ':' :: []) fqsl with
  | none => (fqsl, none)
  | some (left, right) => (left, some right)

/-- `SymbolLink::find_best_match` (links.rs 94-99): among the known packages
that are a string prefix of `fqsl[1..]`, pick one of maximal length
(`max_by_key(len)`; Rust returns the last maximal element, mirrored by the
`≤` in the fold). -/
def find_best_match (fqsl : Str) (packages : List Str) : Option Str :=
  (packages.filter (fun pkg => pkg.isPrefixOf (fqsl.drop 1))).foldl
    (fun best pkg =>
      match best with
      | none => some pkg
      | some b => if b.length ≤ pkg.length then some pkg else some b)
    none

/-- Rust `str::strip_prefix` returning `Option`. -/
def stripPrefixOpt (pre s : Str) : Option Str :=
  if pre.isPrefixOf s then some (s.drop pre.length) else none

/-- `SymbolLink::from_fqsl` (links.rs 65-85): split off the property, find the
longest known package prefix, turn it into a routing path (dots to slashes)
and strip it (with its trailing dot) from the name to obtain the local
symbol; with no match the path is empty and one further leading `.` is
stripped (the `unwrap_or` default makes the stripped prefix `"."`). -/
def from_fqsl (fqsl : Str) (packages : List Str) : SymbolLink :=
  let sp := split_property fqsl
  let fqsl_no_prop := sp.1
  let property := sp.2
  let best_match := find_best_match fqsl_no_prop packages
  let path := (best_match.map (replaceChar '.' '/')).getD []
  let tail := fqsl_no_prop.drop 1
  let symbol := (stripPrefixOpt (best_match.getD [] ++ ['.']) tail).getD tail
  { symbol := symbol, path := path, property := property,
    label_override := none, own_id := none }

/-- `SymbolLink::set_property` (links.rs 101-103). -/
def set_property (s : SymbolLink) (p : Str) : SymbolLink :=
  { s with property := some p }

/-- `SymbolLink::id` (links.rs 105-111): the property-qualified local name. -/
def id (s : SymbolLink) : Str :=
  match s.property with
  | some property => s.symbol ++ ':' :: ':' :: property
  | none => s.symbol

/-- `SymbolLink::fqsl` (links.rs 113-115): the canonical display string,
rebuilt from the path (slashes back to dots) and the qualified id. -/
def fqsl (s : SymbolLink) : Str :=
  '.' :: replaceChar '/' '.' s.path ++ '.' :: s.id

/-- `SymbolLink::label` (links.rs 117-127): the override if set, else the part
of the canonical string after its last dot. -/
def label (s : SymbolLink) : Str :=
  match s.label_override with
  | some l => l
  | none =>
    let f := s.fqsl
    match splitOnce ['.'] f.reverse with
    | some (before, _) => before.reverse
    | none => f

/-- `SymbolLink::set_label` (links.rs 129-131). -/
def set_label (s : SymbolLink) (l : Str) : SymbolLink :=
  { s with label_override := some l }

/-- `SymbolLink::href` (links.rs 133-135). -/
def href (s : SymbolLink) : Str :=
  ("/proto/").toList ++ s.path ++ (".md#").toList ++ s.id

/-- `SymbolLink::set_own_id` (links.rs 137-139). -/
def set_own_id (s : SymbolLink) (i : Str) : SymbolLink :=
  { s with own_id := some i }

/-- `SymbolLink::matches` (links.rs 141-148): the dot-segments of the
candidate's canonical string must end with the dot-segments of the query.
(Named `matchesQuery` because `matches` is a Lean keyword.) -/
def matchesQuery (s : SymbolLink) (query : Str) : Bool :=
  (splitOnChar '.' query).isSuffixOf (splitOnChar '.' s.fqsl)

end SymbolLink

/-- `ContentLink` (links.rs 42-46): a content backlink from a documentation
page, carrying the page's routing path, the citation anchor id, and the
human label. -/
structure ContentLink where
  path : Str
  id : Str
  label : Str
deriving DecidableEq, Repr

/-- `Backlink` (links.rs 34-38): a usage edge, either from page content or
from another schema symbol. -/
inductive Backlink where
  | content (c : ContentLink)
  | symbol (s : SymbolLink)
deriving DecidableEq, Repr

/-- The Cross-Reference Graph: `HashMap<SymbolLink, Vec<Backlink>>`,
embedded as an association list with unique keys. -/
abbrev UsageMap := List (SymbolLink × List Backlink)

/-- `map.entry(k).or_default().push(b)`: append `b` to the edge list of `k`,
creating the entry when missing. -/
def entryPush (m : UsageMap) (k : SymbolLink) (b : Backlink) : UsageMap :=
  match m with
  | [] => [(k, [b])]
  | (k', v) :: rest =>
    if k' = k then (k', v ++ [b]) :: rest else (k', v) :: entryPush rest k b

/-- `map.entry(k).or_default()` with no push: ensure the entry exists. -/
def entryDefault (m : UsageMap) (k : SymbolLink) : UsageMap :=
  match m with
  | [] => [(k, [])]
  | (k', v) :: rest =>
    if k' = k then (k', v) :: rest else (k', v) :: entryDefault rest k

/-- The edge list recorded for a key (`map.get(&k)`, as read by
`assign_backlinks` in links.rs 151-162, with a missing entry read as empty). -/
def usagesGet (m : UsageMap) (k : SymbolLink) : List Backlink :=
  match m with
  | [] => []
  | (k', v) :: rest => if k' = k then v else usagesGet rest k

/-- The pulldown-cmark event stream of one page, reduced to the shapes
`link_proto_symbols` (links.rs 197-295) discriminates on: a link start
carrying its destination url, a text run, a link end, inline html, and an
opaque constructor for every other event kind (which the rewriter passes
through untouched). -/
inductive Event where
  | startLink (dest_url : Str)
  | text (s : Str)
  | endLink
  | inlineHtml (s : Str)
  | other (n : Nat)
deriving DecidableEq, Repr

/-- The regex `proto!\((.*)\)` of links.rs 185, applied via `is_match` /
`captures`: succeeds iff the destination contains `proto!(` with some `)`
after it; the capture runs from after the first such `proto!(` to the last
`)` of the remainder (the `.*` is greedy). -/
def protoQuery? : Str → Option Str
  | [] => none
  | c :: rest =>
    if ("proto!(").toList.isPrefixOf (c :: rest) then
      match splitOnce [')'] ((c :: rest).drop 7).reverse with
      | some (_, after) => some after.reverse
      | none => protoQuery? rest
    else protoQuery? rest

/-- `format!("proto!({})", fqsl)` as used in the error branches. -/
def protoBang (fqsl : Str) : Str :=
  ("proto!(").toList ++ fqsl ++ [')']

/-- One insertion step of the stable ascending `sort_by_key` on the fuzzy
score (links.rs 225): an element is placed before the first strictly larger
key, keeping the original order of equal keys. -/
def insertByKey (x : Str × Int) : List (Str × Int) → List (Str × Int)
  | [] => [x]
  | y :: ys => if x.2 ≤ y.2 then x :: y :: ys else y :: insertByKey x ys

/-- Rust's stable `sort_by_key(|(_, distance)| *distance)` (ascending). -/
def sortByKey : List (Str × Int) → List (Str × Int)
  | [] => []
  | x :: xs => insertByKey x (sortByKey xs)

/-- links.rs 217-225: every candidate's canonical string paired with its
fuzzy-similarity score against the query, sorted ascending by score.
The `SkimMatcherV2` metric is an external crate; it enters as the `score`
parameter, standing for `matcher.fuzzy_match(&fqsl, &query).unwrap_or(0)`. -/
def scoredLinks (score : Str → Str → Int) (links : List SymbolLink) (query : Str) :
    List (Str × Int) :=
  sortByKey (links.map (fun link => (link.fqsl, score link.fqsl query)))

/-- links.rs 227-229: the near-match suggestions — walk the scores from the
top, keep only strictly positive ones, take at most three, and format each
as a replacement query. -/
def suggestionList (score : Str → Str → Int) (links : List SymbolLink) (query : Str) :
    List Str :=
  ((((scoredLinks score links query).reverse).filter (fun p => 0 < p.2)).take 3).map
    (fun p => protoBang p.1)

/-- links.rs 231-236: the zero-match error text — near-match suggestions when
any score positively, otherwise a sample of up to three valid queries. -/
def noMatchError (score : Str → Str → Int) (links : List SymbolLink) (query : Str) : Str :=
  let suggestions := suggestionList score links query
  if suggestions = [] then
    ("No protobuf symbol matched your query `").toList ++ query ++
      ("`, or was similar. Sample of valid formats:\n").toList ++
      joinLines (((scoredLinks score links query).map (fun p => protoBang p.1)).take 3)
  else
    ("No protobuf symbol matched your query `").toList ++ query ++
      ("`, consider one of the following near matches:\n").toList ++
      joinLines suggestions

/-- links.rs 246: the ambiguity error text, enumerating every matching
candidate as a replacement query. -/
def tooManyError (ms : List SymbolLink) : Str :=
  ("More than one protobuf symbol matched your query. Replace your link with one of the following:\n").toList ++
    joinLines (ms.map (fun s => protoBang s.fqsl))

/-- Modelled from the spec: the askama template `symbol_link.html` referenced
by `SymbolLink`'s `#[derive(Template)]` is not under src/; per §4.3 and §6 of
the spec the rendered replacement is an inline anchor at the identity's href
with the captured label as its text (cf. the expected output in the links.rs
tests: `<a href="/proto/hello.md#HelloWorld">proto link</a>`). -/
def SymbolLink.render (s : SymbolLink) : Str :=
  ("<a href=\"").toList ++ s.href ++ ("\">").toList ++ s.label ++ ("</a>").toList

/-- The mutable state threaded through the `filter_map` closure of
`link_proto_symbols`: the shared usage map, the link currently being
rewritten, and the page-scoped citation counter (`chapter_link_id`). -/
structure LinkState where
  usages : UsageMap
  current_link : Option SymbolLink
  chapter_link_id : Nat
deriving Repr

/-- The `Event::Start(Tag::Link ..)` arm of `link_proto_symbols`
(links.rs 198-272): resolve the query against the candidate set, fail with
the zero- or many-match error, and on a unique match record a content
backlink — but only when the page has a routing path — before remembering
the resolved link for the following text/end events. -/
def handleProtoLink (score : Str → Str → Int) (links : List SymbolLink)
    (chapter_name : Str) (chapter_path : Option Str)
    (st : LinkState) (link_query : Str) : Except Str LinkState :=
  let ms := links.filter (fun s => s.matchesQuery link_query)
  match ms with
  | [] => .error (noMatchError score links link_query)
  | [s] =>
    match chapter_path with
    | some path =>
      let usage_id := st.chapter_link_id
      let idStr := natToStr usage_id ++ s.fqsl
      let symbol_link := s.set_own_id idStr
      let lab := chapter_name ++ '[' :: (natToStr usage_id ++ [']'])
      let content_link : ContentLink := { path := path, id := idStr, label := lab }
      .ok { st with usages := entryPush st.usages s (Backlink.content content_link),
                    current_link := some symbol_link }
    | none => .ok { st with current_link := some s }
  | _ => .error (tooManyError ms)

/-- One step of the `filter_map` closure (links.rs 197-295), covering all four
arms in order: a link start whose destination matches the `proto!` pattern, a
text run inside a pending proto link (captured as its label), the end of a
pending proto link (emitting the rendered inline anchor and bumping the
citation counter), and the pass-through default. -/
def processEvent (score : Str → Str → Int) (links : List SymbolLink)
    (chapter_name : Str) (chapter_path : Option Str)
    (st : LinkState) (e : Event) : Except Str (LinkState × Option Event) :=
  match e with
  | Event.startLink dest_url =>
    match protoQuery? dest_url with
    | some link_query =>
      (handleProtoLink score links chapter_name chapter_path st link_query).map
        (fun st' => (st', none))
    | none => .ok (st, some e)
  | Event.text s =>
    match st.current_link with
    | some l => .ok ({ st with current_link := some (l.set_label s) }, none)
    | none => .ok (st, some e)
  | Event.endLink =>
    match st.current_link with
    | some l =>
      .ok ({ st with current_link := none, chapter_link_id := st.chapter_link_id + 1 },
           some (Event.inlineHtml l.render))
    | none => .ok (st, some e)
  | e => .ok (st, some e)

/-- The event fold of `link_proto_symbols`: Rust collects the `filter_map`
iterator into `Result<Vec<Event>>`, so the first error aborts the page. -/
def linkEvents (score : Str → Str → Int) (links : List SymbolLink)
    (chapter_name : Str) (chapter_path : Option Str) :
    LinkState → List Event → Except Str (List Event × UsageMap)
  | st, [] => .ok ([], st.usages)
  | st, e :: rest =>
    match processEvent score links chapter_name chapter_path st e with
    | .error msg => .error msg
    | .ok (st', oe) =>
      match linkEvents score links chapter_name chapter_path st' rest with
      | .error msg => .error msg
      | .ok (evs, u) =>
        .ok ((match oe with | none => evs | some ev => ev :: evs), u)

/-- `link_proto_symbols` (links.rs 173-302) over the parsed event stream of a
page: the candidate set is the snapshot of the usage map's keys, the citation
counter starts at 1, and no link is pending initially.  (The chapter is its
title, optional routing path and event stream; markdown decoding/encoding is
the external pulldown-cmark pair, abstracted in
`link_proto_symbols_content`.) -/
def link_proto_symbols (score : Str → Str → Int) (chapter_name : Str)
    (chapter_path : Option Str) (events : List Event) (symbol_usages : UsageMap) :
    Except Str (List Event × UsageMap) :=
  linkEvents score (symbol_usages.map Prod.fst) chapter_name chapter_path
    { usages := symbol_usages, current_link := none, chapter_link_id := 1 } events

/-- `link_proto_symbols` at the page-content level: `parse` stands for
`pulldown_cmark::Parser::new_ext` and `serialize` for
`pulldown_cmark_to_cmark::cmark`, both external crates (spec §4.3 treats the
event stream as preserving non-reference constructs byte-for-byte). -/
def link_proto_symbols_content (parse : Str → List Event) (serialize : List Event → Str)
    (score : Str → Str → Int) (chapter_name : Str) (chapter_path : Option Str)
    (content : Str) (symbol_usages : UsageMap) : Except Str (Str × UsageMap) :=
  match link_proto_symbols score chapter_name chapter_path (parse content) symbol_usages with
  | .error msg => .error msg
  | .ok (evs, u) => .ok (serialize evs, u)

/-! ## Descriptor indexing (`view.rs`)

The prost descriptor tree enters already decoded (spec §6).  Only the parts
the indexer reads are carried: names, field types and type names, oneof
indices, and the service/method shapes.  Source-location spans, comments and
deprecation flags feed the rendered templates only and never touch the
cross-reference graph, so they are not modelled; likewise the oneof display
grouping of fields (view.rs 238-249), which moves `SimpleField` values
between vectors without touching `symbol_usages`. -/

/-- `prost_types::field_descriptor_proto::Type` (the wire type of a field). -/
inductive PType where
  | Double | Float | Int64 | Uint64 | Int32 | Fixed64 | Fixed32 | Bool
  | String | Group | Message | Bytes | Uint32 | Enum | Sfixed32 | Sfixed64
  | Sint32 | Sint64
deriving DecidableEq, Repr

/-- `prost_types::FieldDescriptorProto`, reduced to the fields view.rs reads.
`typ` is Rust's `r#type: Option<i32>` already decoded through
`Type::try_from` (which view.rs 115 unwraps). -/
structure FieldDescriptorProto where
  name : Str
  typ : Option PType
  type_name : Str
  proto3_optional : Option Bool
  oneof_index : Option Int
deriving DecidableEq, Repr

/-- `FieldType` (view.rs 12-16). -/
inductive FieldType where
  | Symbol (s : SymbolLink)
  | Primitive (t : PType)
  | Unimplemented
deriving DecidableEq, Repr

/-- `SimpleField` (view.rs 86-94) without the display-only `meta` and
`deprecated` fields. -/
structure SimpleField where
  name : Str
  typ : FieldType
  optional : Bool
  oneof_index : Option Int
  self_link : SymbolLink
deriving DecidableEq, Repr

/-- `SimpleField::from_descriptor` (view.rs 96-131): the field's own identity
is the parent message identity with the field name as property; a field whose
declared type is `Message` or `Enum` resolves its `type_name` through
`SymbolLink::from_fqsl`. -/
def SimpleField.from_descriptor (field_descriptor : FieldDescriptorProto)
    (packages : List Str) (parent_symbol : SymbolLink) : SimpleField :=
  let name := field_descriptor.name
  let self_link := parent_symbol.set_property name
  { name := name,
    typ :=
      match field_descriptor.typ with
      | none => FieldType.Unimplemented
      | some t =>
        match t with
        | PType.Enum => FieldType.Symbol (SymbolLink.from_fqsl field_descriptor.type_name packages)
        | PType.Message => FieldType.Symbol (SymbolLink.from_fqsl field_descriptor.type_name packages)
        | t => FieldType.Primitive t,
    optional := field_descriptor.proto3_optional.getD false,
    oneof_index := field_descriptor.oneof_index,
    self_link := self_link }

/-- `prost_types::EnumDescriptorProto` (name only; enum values never touch the
usage map). -/
structure EnumDescriptorProto where
  name : Str
deriving DecidableEq, Repr

mutual
/-- `prost_types::DescriptorProto`: a message declaration with its fields,
nested messages and nested enums.  The nested messages are held in the
companion list type so that structural recursion is available. -/
inductive DescriptorProto where
  | mk (name : Str) (field : List FieldDescriptorProto)
       (nested_type : DescriptorProtoList) (enum_type : List EnumDescriptorProto)
deriving DecidableEq

/-- The `Vec<DescriptorProto>` of nested message declarations. -/
inductive DescriptorProtoList where
  | nil
  | cons (head : DescriptorProto) (tail : DescriptorProtoList)
deriving DecidableEq
end

def DescriptorProto.name : DescriptorProto → Str
  | .mk n _ _ _ => n

def DescriptorProto.field : DescriptorProto → List FieldDescriptorProto
  | .mk _ f _ _ => f

def DescriptorProto.nested_type : DescriptorProto → DescriptorProtoList
  | .mk _ _ n _ => n

def DescriptorProtoList.toList : DescriptorProtoList → List DescriptorProto
  | .nil => []
  | .cons m rest => m :: rest.toList

/-- `format!(".{}.{}", package, parts.join("."))`: the raw fully-qualified
name built by the indexer for messages, enums and services. -/
def mkFqsl (package : Str) (parts : List Str) : Str :=
  '.' :: package ++ '.' :: List.intercalate ['.'] parts

/-- The `Enum` template struct (view.rs 321-329), reduced to its identity. -/
structure EnumV where
  name : Str
  self_link : SymbolLink
deriving DecidableEq, Repr

/-- `Enum::from_descriptor` (view.rs 332-365): builds the enum's identity;
it records nothing in the usage map. -/
def EnumV.from_descriptor (e : EnumDescriptorProto) (packages : List Str)
    (package : Str) (namespaceParts : List Str) : EnumV :=
  { name := e.name,
    self_link := SymbolLink.from_fqsl (mkFqsl package (namespaceParts ++ [e.name])) packages }

/-- The `ProtoMessage` template struct (view.rs 163-174), reduced to the parts
the indexer computes (identity, fields, nested tree). -/
inductive ProtoMessage where
  | mk (name : Str) (self_link : SymbolLink) (fields : List SimpleField)
       (nested_message : List ProtoMessage) (nested_enum : List EnumV)

/-- The `for field in all_fields` loop of `ProtoMessage::from_descriptor`
(view.rs 227-247), restricted to its effect on `symbol_usages`: every field
resolved to a `Symbol` type pushes a Symbol backlink from the message
identity qualified with the field name onto that type's edge list. -/
def processFieldBacklinks (self_link : SymbolLink) (fields : List SimpleField)
    (usages : UsageMap) : UsageMap :=
  fields.foldl
    (fun m field =>
      match field.typ with
      | FieldType.Symbol symbol_link =>
        entryPush m symbol_link (Backlink.symbol (self_link.set_property field.name))
      | _ => m)
    usages

mutual
/-- `ProtoMessage::from_descriptor` (view.rs 176-301): compute the message
identity from package and message path, resolve every field, push the field
type backlinks, then recurse into nested messages (which run against the map
state left by the field loop) and nested enums. -/
def ProtoMessage.from_descriptor (message_descriptor : DescriptorProto)
    (parent_messages : List Str) (packages : List Str) (package : Str)
    (usages : UsageMap) : ProtoMessage × UsageMap :=
  match message_descriptor with
  | .mk name fieldDescs nested enums =>
    let message_path := parent_messages ++ [name]
    let self_link := SymbolLink.from_fqsl (mkFqsl package message_path) packages
    let all_fields := fieldDescs.map
      (fun f => SimpleField.from_descriptor f packages self_link)
    let usages1 := processFieldBacklinks self_link all_fields usages
    let nestedResult := ProtoMessage.from_descriptor_list nested message_path packages package usages1
    (ProtoMessage.mk name self_link all_fields nestedResult.1
      (enums.map (fun e => EnumV.from_descriptor e packages package message_path)),
     nestedResult.2)

/-- The `nested_type.iter().map(..)` recursion of view.rs 258-275, threading
the shared usage map left to right in declaration order. -/
def ProtoMessage.from_descriptor_list (mds : DescriptorProtoList)
    (parent_messages : List Str) (packages : List Str) (package : Str)
    (usages : UsageMap) : List ProtoMessage × UsageMap :=
  match mds with
  | .nil => ([], usages)
  | .cons m rest =>
    let r1 := ProtoMessage.from_descriptor m parent_messages packages package usages
    let r2 := ProtoMessage.from_descriptor_list rest parent_messages packages package r1.2
    (r1.1 :: r2.1, r2.2)
end

/-- `prost_types::MethodDescriptorProto` (the `input_type`/`output_type`
options are unwrapped by view.rs 467/475). -/
structure MethodDescriptorProto where
  name : Str
  input_type : Str
  output_type : Str
deriving DecidableEq, Repr

/-- `prost_types::ServiceDescriptorProto`. -/
structure ServiceDescriptorProto where
  name : Str
  method : List MethodDescriptorProto
deriving DecidableEq, Repr

/-- `prost_types::FileDescriptorProto`, reduced to the parts view.rs reads. -/
structure FileDescriptorProto where
  name : Str
  package : Str
  message_type : DescriptorProtoList
  enum_type : List EnumDescriptorProto
  service : List ServiceDescriptorProto

/-- The `Method` template struct (view.rs 380-389), reduced to identities. -/
structure MethodV where
  name : Str
  request_message : SymbolLink
  response_message : SymbolLink
  self_link : SymbolLink
deriving DecidableEq, Repr

/-- The `Service` template struct (view.rs 403-410), reduced to identities. -/
structure ServiceV where
  name : Str
  methods : List MethodV
  self_link : SymbolLink
deriving DecidableEq, Repr

/-- The method loop of `ProtoFileDescriptorTemplate::from_descriptor`
(view.rs 455-498): each method's identity is the service identity qualified
with the method name; the method registers itself and pushes a Symbol
backlink onto both its request type's and its response type's edge list. -/
def processMethods (packages : List Str) (service_link : SymbolLink)
    (ms : List MethodDescriptorProto) (usages : UsageMap) :
    List MethodV × UsageMap :=
  match ms with
  | [] => ([], usages)
  | m :: rest =>
    let method_link := service_link.set_property m.name
    let u1 := entryDefault usages method_link
    let request_message := SymbolLink.from_fqsl m.input_type packages
    let u2 := entryPush u1 request_message (Backlink.symbol method_link)
    let response_message := SymbolLink.from_fqsl m.output_type packages
    let u3 := entryPush u2 response_message (Backlink.symbol method_link)
    let r := processMethods packages service_link rest u3
    ({ name := m.name, request_message := request_message,
       response_message := response_message, self_link := method_link } :: r.1,
     r.2)

/-- The service loop of view.rs 439-505: each service builds its identity,
registers it in the usage map, and processes its methods. -/
def processServices (packages : List Str) (package : Str)
    (ss : List ServiceDescriptorProto) (usages : UsageMap) :
    List ServiceV × UsageMap :=
  match ss with
  | [] => ([], usages)
  | s :: rest =>
    let service_link := SymbolLink.from_fqsl (mkFqsl package [s.name]) packages
    let u0 := entryDefault usages service_link
    let r1 := processMethods packages service_link s.method u0
    let r2 := processServices packages package rest r1.2
    ({ name := s.name, methods := r1.1, self_link := service_link } :: r2.1, r2.2)

/-- The `ProtoFileDescriptorTemplate` (view.rs 424-429), reduced to the
indexed entity tree. -/
structure ProtoFileDescriptorTemplate where
  services : List ServiceV
  messages : List ProtoMessage
  enums : List EnumV
  filename : Str

/-- `ProtoFileDescriptorTemplate::from_descriptor` (view.rs 432-547): index
services (with their type-usage edges), then the message tree (with its field
edges), then the top-level enums (which add no edges). -/
def ProtoFileDescriptorTemplate.from_descriptor (descriptor : FileDescriptorProto)
    (packages : List Str) (usages : UsageMap) :
    ProtoFileDescriptorTemplate × UsageMap :=
  let rs := processServices packages descriptor.package descriptor.service usages
  let rm := ProtoMessage.from_descriptor_list descriptor.message_type [] packages
    descriptor.package rs.2
  let enums := descriptor.enum_type.map
    (fun e => EnumV.from_descriptor e packages descriptor.package [])
  ({ services := rs.1, messages := rm.1, enums := enums, filename := descriptor.name },
   rm.2)

/-- Occurrence of a message declaration (with the message path leading to it)
inside another message declaration, through any depth of nesting — the shape
of the recursion of `ProtoMessage::from_descriptor`. -/
inductive MsgIn : DescriptorProto → List Str → DescriptorProto → List Str → Prop where
  | here (md : DescriptorProto) (parent : List Str) : MsgIn md parent md parent
  | nested (inner : DescriptorProto) (pi : List Str) (m' md : DescriptorProto)
      (parent : List Str) (hm : m' ∈ md.nested_type.toList)
      (h : MsgIn inner pi m' (parent ++ [md.name])) : MsgIn inner pi md parent

/-- Occurrence of a message declaration among a file's messages, at any
nesting depth, with the message path leading to it. -/
def MsgInFile (inner : DescriptorProto) (pi : List Str)
    (descriptor : FileDescriptorProto) : Prop :=
  ∃ top ∈ descriptor.message_type.toList, MsgIn inner pi top []

/-! ## Lemmas about the name-splitting primitives -/

/-- Two prefixes of the same string with equal lengths coincide; this is why
`max_by_key(len)` over the matching packages is deterministic even though the
`HashSet` iteration order is not. -/
theorem prefix_eq_of_length {l₁ l₂ s : Str} (h₁ : l₁ <+: s) (h₂ : l₂ <+: s)
    (h : l₁.length = l₂.length) : l₁ = l₂ := by
  rw [List.prefix_iff_eq_take] at h₁ h₂
  rw [h₁, h₂, h]

/-- The fold inside `find_best_match` returns `pkg` whenever `pkg` is in the
scanned list, every scanned element is no longer than `pkg`, and any element
reaching `pkg`'s length is `pkg` itself. -/
theorem foldl_best_eq (pkg : Str) (L : List Str) (acc : Option Str)
    (hsmall : ∀ q ∈ L, q.length ≤ pkg.length ∧ (pkg.length ≤ q.length → q = pkg))
    (hin : (pkg ∈ L ∧ (acc = none ∨
        ∃ b, b.length ≤ pkg.length ∧ (pkg.length ≤ b.length → b = pkg) ∧ acc = some b))
      ∨ acc = some pkg) :
    L.foldl
      (fun best p =>
        match best with
        | none => some p
        | some b => if b.length ≤ p.length then some p else some b)
      acc = some pkg := by
  induction L generalizing acc with
  | nil =>
    rcases hin with ⟨hmem, _⟩ | hacc
    · exact absurd hmem (List.not_mem_nil pkg)
    · simpa using hacc
  | cons q L ih =>
    have hq := hsmall q (List.mem_cons_self q L)
    rw [List.foldl_cons]
    rcases hin with ⟨hmem, hacc⟩ | hacc
    · rcases hacc with hacc | ⟨b, hb1, hb2, hacc⟩
      · subst hacc
        rcases List.mem_cons.mp hmem with hqp | hmem'
        · subst hqp
          exact ih _ (fun x hx => hsmall x (List.mem_cons_of_mem _ hx))
            (Or.inr rfl)
        · exact ih _ (fun x hx => hsmall x (List.mem_cons_of_mem _ hx))
            (Or.inl ⟨hmem', Or.inr ⟨q, hq.1, hq.2, rfl⟩⟩)
      · subst hacc
        rcases List.mem_cons.mp hmem with hqp | hmem'
        · subst hqp
          have : b.length ≤ pkg.length := hb1
          simp only [this, if_true]
          exact ih _ (fun x hx => hsmall x (List.mem_cons_of_mem _ hx)) (Or.inr rfl)
        · by_cases hble : b.length ≤ q.length
          · simp only [hble, if_true]
            exact ih _ (fun x hx => hsmall x (List.mem_cons_of_mem _ hx))
              (Or.inl ⟨hmem', Or.inr ⟨q, hq.1, hq.2, rfl⟩⟩)
          · simp only [hble, if_false]
            exact ih _ (fun x hx => hsmall x (List.mem_cons_of_mem _ hx))
              (Or.inl ⟨hmem', Or.inr ⟨b, hb1, hb2, rfl⟩⟩)
    · subst hacc
      by_cases hle : pkg.length ≤ q.length
      · have hqeq : q = pkg := hq.2 hle
        subst hqeq
        simp only [hle, if_true]
        exact ih _ (fun x hx => hsmall x (List.mem_cons_of_mem _ hx)) (Or.inr rfl)
      · simp only [hle, if_false]
        exact ih _ (fun x hx => hsmall x (List.mem_cons_of_mem _ hx)) (Or.inr rfl)

/-- `find_best_match` returns the (unique) longest known package that is a
string prefix of the name after the leading separator. -/
theorem find_best_match_eq_some {fqsl : Str} {packages : List Str} {pkg : Str}
    (hm : pkg ∈ packages) (hp : pkg <+: fqsl.drop 1)
    (hmax : ∀ q ∈ packages, q <+: fqsl.drop 1 → q.length ≤ pkg.length) :
    SymbolLink.find_best_match fqsl packages = some pkg := by
  unfold SymbolLink.find_best_match
  apply foldl_best_eq
  · intro q hq
    have hq' := List.mem_filter.mp hq
    have hqpre : q <+: fqsl.drop 1 := isPrefixOf_iff.mp hq'.2
    refine ⟨hmax q hq'.1 hqpre, fun hlen => ?_⟩
    exact prefix_eq_of_length hqpre hp
      (Nat.le_antisymm (hmax q hq'.1 hqpre) hlen)
  · exact Or.inl ⟨List.mem_filter.mpr ⟨hm, isPrefixOf_iff.mpr hp⟩, Or.inl rfl⟩

/-- `find_best_match` returns `none` when no known package is a string prefix
of the name after the leading separator. -/
theorem find_best_match_eq_none {fqsl : Str} {packages : List Str}
    (hnone : ∀ q ∈ packages, ¬ q <+: fqsl.drop 1) :
    SymbolLink.find_best_match fqsl packages = none := by
  unfold SymbolLink.find_best_match
  have : packages.filter (fun pkg => pkg.isPrefixOf (fqsl.drop 1)) = [] := by
    rw [List.filter_eq_nil_iff]
    intro q hq
    simpa [isPrefixOf_iff] using hnone q hq
  rw [this]
  rfl

/-- `from_fqsl` when the best package match exists and the name continues
with a separator after it: the path is the package with dots turned to
slashes, and the symbol is the remainder past the package and its dot. -/
theorem from_fqsl_eq_of_best {fqsl core : Str} {prop : Option Str}
    {packages : List Str} {pkg : Str}
    (hsplit : SymbolLink.split_property fqsl = (core, prop))
    (hbest : SymbolLink.find_best_match core packages = some pkg)
    (halign : (pkg ++ ['.']) <+: core.drop 1) :
    SymbolLink.from_fqsl fqsl packages =
      { symbol := (core.drop 1).drop (pkg.length + 1),
        path := replaceChar '.' '/' pkg,
        property := prop, label_override := none, own_id := none } := by
  unfold SymbolLink.from_fqsl
  rw [hsplit]
  simp only [hbest, Option.map_some', Option.getD_some, SymbolLink.stripPrefixOpt,
    isPrefixOf_iff.mpr halign, if_true]
  have : (pkg ++ ['.']).length = pkg.length + 1 := by simp
  rw [this]

/-- `from_fqsl` when no package matches: the path is empty and the symbol is
the name after the leading separator (given that the remainder does not start
with a second separator, which the `unwrap_or`-defaulted `strip_prefix(".")`
would otherwise strip). -/
theorem from_fqsl_eq_of_none {fqsl core : Str} {prop : Option Str}
    {packages : List Str}
    (hsplit : SymbolLink.split_property fqsl = (core, prop))
    (hnone : SymbolLink.find_best_match core packages = none)
    (hnd : ¬ (['.'] <+: core.drop 1)) :
    SymbolLink.from_fqsl fqsl packages =
      { symbol := core.drop 1, path := [], property := prop,
        label_override := none, own_id := none } := by
  unfold SymbolLink.from_fqsl
  rw [hsplit]
  have hfail : (['.'] : Str).isPrefixOf (core.drop 1) = false := by
    rw [Bool.eq_false_iff]
    intro hc
    exact hnd (isPrefixOf_iff.mp hc)
  simp only [hnone, Option.map_none', Option.getD_none, SymbolLink.stripPrefixOpt,
    List.nil_append, hfail, Bool.false_eq_true, if_false]

/-- A successful `split_once` reassembles to the original string. -/
theorem splitOnce_append {sep s l r : Str}
    (h : splitOnce sep s = some (l, r)) : s = l ++ sep ++ r := by
  induction s generalizing l with
  | nil =>
    unfold splitOnce at h
    by_cases hp : sep.isPrefixOf ([] : Str) = true
    · have hsep : sep = [] := List.prefix_nil.mp (isPrefixOf_iff.mp hp)
      rw [hp] at h
      simp only [if_true, Option.some.injEq, Prod.mk.injEq] at h
      simp [← h.1, ← h.2, hsep]
    · simp [hp] at h
  | cons c rest ih =>
    unfold splitOnce at h
    by_cases hp : sep.isPrefixOf (c :: rest) = true
    · rw [hp] at h
      simp only [if_true, Option.some.injEq, Prod.mk.injEq] at h
      obtain ⟨hl, hr⟩ := h
      subst hl
      subst hr
      obtain ⟨t, ht⟩ := isPrefixOf_iff.mp hp
      conv_lhs => rw [← ht]
      simp [← ht]
    · rw [(Bool.not_eq_true _).mp hp] at h
      simp only [Bool.false_eq_true, if_false, Option.map_eq_some'] at h
      obtain ⟨⟨l', r'⟩, hrec, heq⟩ := h
      simp only [Prod.mk.injEq] at heq
      obtain ⟨hl, hr⟩ := heq
      subst hr
      rw [← hl]
      simpa using congrArg (fun t => c :: t) (ih hrec)

/-- `split_property` reassembles: the name is the core followed by the
property suffix when one was split off. -/
theorem split_property_append {fqsl core : Str} {prop : Option Str}
    (h : SymbolLink.split_property fqsl = (core, prop)) :
    fqsl = core ++ (match prop with | some p => ':' :: ':' :: p | none => []) := by
  unfold SymbolLink.split_property at h
  cases hs : splitOnce (':' :: ':' :: []) fqsl with
  | none =>
    rw [hs] at h
    simp only [Prod.mk.injEq] at h
    obtain ⟨h1, h2⟩ := h
    subst h1
    subst h2
    simp
  | some pr =>
    obtain ⟨l, r⟩ := pr
    rw [hs] at h
    simp only [Prod.mk.injEq] at h
    obtain ⟨h1, h2⟩ := h
    subst h1
    subst h2
    simpa using splitOnce_append hs

/-- Dot-to-slash then slash-to-dot is the identity on slash-free package
names (package names come from protobuf `package` declarations). -/
theorem replaceChar_roundtrip {pkg : Str} (h : '/' ∉ pkg) :
    replaceChar '/' '.' (replaceChar '.' '/' pkg) = pkg := by
  unfold replaceChar
  rw [List.map_map]
  conv_rhs => rw [← List.map_id pkg]
  apply List.map_congr_left
  intro c hc
  by_cases hdot : c = '.'
  · simp [hdot]
  · have hslash : c ≠ '/' := fun hcc => h (hcc ▸ hc)
    simp [hdot, hslash]

/-! ## Claims about the Symbol Identity model -/

/-- C1: for a raw name `.rest` (no `::` property suffix), `from_fqsl` splits
on the longest known package that is a string prefix of `rest`: the path is
that package with dots replaced by slashes and the symbol is the remainder
past the package and its trailing dot (the package being followed by a dot
makes the claim's "remainder after stripping" well defined); with no matching
package the path is empty and the symbol is `rest` itself (for names with a
single leading separator). -/
theorem claim_C1 (rest : Str) (packages : List Str)
    (hnp : splitOnce (':' :: ':' :: []) ('.' :: rest) = none) :
    (∀ pkg ∈ packages, (pkg ++ ['.']) <+: rest →
      (∀ q ∈ packages, q <+: rest → q.length ≤ pkg.length) →
      SymbolLink.from_fqsl ('.' :: rest) packages =
        { symbol := rest.drop (pkg.length + 1), path := replaceChar '.' '/' pkg,
          property := none, label_override := none, own_id := none })
    ∧ ((∀ q ∈ packages, ¬ q <+: rest) → ¬ (['.'] <+: rest) →
      SymbolLink.from_fqsl ('.' :: rest) packages =
        { symbol := rest, path := [], property := none,
          label_override := none, own_id := none }) := by
  have hsplit : SymbolLink.split_property ('.' :: rest) = ('.' :: rest, none) := by
    unfold SymbolLink.split_property
    rw [hnp]
  constructor
  · intro pkg hmem halign hmax
    have hpre : pkg <+: rest := (List.prefix_append pkg ['.']).trans halign
    have hbest : SymbolLink.find_best_match ('.' :: rest) packages = some pkg :=
      find_best_match_eq_some hmem hpre hmax
    exact from_fqsl_eq_of_best hsplit hbest halign
  · intro hnone hnd
    have hbest : SymbolLink.find_best_match ('.' :: rest) packages = none :=
      find_best_match_eq_none hnone
    exact from_fqsl_eq_of_none hsplit hbest hnd

/-- C1 witness: the claim's own example, `.package.deeper.Message.Nested`
against known packages `package` and `package.deeper`, where the longer
package wins. -/
theorem claim_C1_witness :
    SymbolLink.from_fqsl ((".package.deeper.Message.Nested").toList)
      [("package").toList, ("package.deeper").toList] =
      { symbol := ("Message.Nested").toList, path := ("package/deeper").toList,
        property := none, label_override := none, own_id := none } := by
  have h := (claim_C1 (("package.deeper.Message.Nested").toList)
      [("package").toList, ("package.deeper").toList] (by decide)).1
      (("package.deeper").toList) (by decide) (by decide) (by decide)
  exact h

/-- A `SymbolLink` for symbol `A` in package `p` carrying a label override,
as the Content Rewriter produces while rendering a reference. -/
def labelledLinkA : SymbolLink :=
  { symbol := ("A").toList, path := ("p").toList, property := none,
    label_override := some (("x").toList), own_id := none }

/-- The same identity without the display-only label override, as stored in
the usage-map keys during indexing. -/
def plainLinkA : SymbolLink :=
  { symbol := ("A").toList, path := ("p").toList, property := none,
    label_override := none, own_id := none }

/-- A distinct identity used as an edge payload. -/
def plainLinkB : SymbolLink :=
  { symbol := ("B").toList, path := ("p").toList, property := none,
    label_override := none, own_id := none }

/-- C2 counterexample: two `SymbolLink` values equal on `path`, `symbol` and
`property` but differing in `label_override` are *not* equal under the derived
equality (`#[derive(Eq, PartialEq)]` compares every field), and such a
difference also makes a usage-map key lookup miss. -/
theorem claim_C2_counterexample :
    labelledLinkA.path = plainLinkA.path
    ∧ labelledLinkA.symbol = plainLinkA.symbol
    ∧ labelledLinkA.property = plainLinkA.property
    ∧ labelledLinkA ≠ plainLinkA
    ∧ usagesGet [(plainLinkA, [Backlink.symbol plainLinkB])] labelledLinkA = [] := by
  refine ⟨rfl, rfl, rfl, ?_, by decide⟩
  decide

/-- C2 amended: the equality the program uses on `SymbolLink` (the derived
`Eq`/`PartialEq`, which also governs usage-map key lookup) holds iff *all
five* fields agree — `label_override` and `own_id` are compared too, not
excluded. -/
theorem claim_C2 : ∀ a b : SymbolLink,
    a = b ↔ (a.symbol = b.symbol ∧ a.path = b.path ∧ a.property = b.property ∧
      a.label_override = b.label_override ∧ a.own_id = b.own_id) := by
  intro a b
  constructor
  · rintro rfl
    exact ⟨rfl, rfl, rfl, rfl, rfl⟩
  · rintro ⟨h1, h2, h3, h4, h5⟩
    cases a
    cases b
    simp_all

/-- C3: `matches` holds iff the dot-segments of the candidate's canonical
string end with the dot-segments of the query (segment-wise suffix match);
in particular `Widget` matches `.pkg.Widget` and `.pkg.sub.Widget` but not
`.pkg.NotWidget`. -/
theorem claim_C3 :
    (∀ (s : SymbolLink) (q : Str),
      SymbolLink.matchesQuery s q = true ↔ splitOnChar '.' q <:+ splitOnChar '.' s.fqsl)
    ∧ SymbolLink.matchesQuery
        (SymbolLink.from_fqsl ((".pkg.Widget").toList) [("pkg").toList])
        (("Widget").toList) = true
    ∧ SymbolLink.matchesQuery
        (SymbolLink.from_fqsl ((".pkg.sub.Widget").toList) [("pkg").toList])
        (("Widget").toList) = true
    ∧ SymbolLink.matchesQuery
        (SymbolLink.from_fqsl ((".pkg.NotWidget").toList) [("pkg").toList])
        (("Widget").toList) = false := by
  refine ⟨fun s q => ?_, by decide, by decide, by decide⟩
  unfold SymbolLink.matchesQuery
  exact isSuffixOf_iff

/-- C8: the property round-trip — `.package.Service::FooCall` with known
package `package` yields symbol `Service`, property `FooCall`, and `id()`
reproduces `Service::FooCall`. -/
theorem claim_C8 :
    SymbolLink.from_fqsl ((".package.Service::FooCall").toList) [("package").toList] =
      { symbol := ("Service").toList, path := ("package").toList,
        property := some (("FooCall").toList), label_override := none, own_id := none }
    ∧ SymbolLink.id
        (SymbolLink.from_fqsl ((".package.Service::FooCall").toList) [("package").toList]) =
      ("Service::FooCall").toList := by
  constructor
  · decide
  · decide

/-- C10 counterexample: (1) the name `.a.b` has the form `.{pkg}.{rest}` with
known `pkg = a` and non-empty `rest = b`, yet `fqsl()` of its `SymbolLink` is
`.a.b.a.b`, not the original name (the longest match `a.b` swallows the whole
remainder and the strip fails); (2) the name `..X` matches no known package,
yet `fqsl()` is `..X` — equal to the input and not the claimed `..` +
remainder (which would be `...X`). -/
theorem claim_C10_counterexample :
    ((".a.b").toList = '.' :: ("a").toList ++ '.' :: ("b").toList
      ∧ ("a").toList ∈ [("a").toList, ("a.b").toList]
      ∧ ("b").toList ≠ []
      ∧ SymbolLink.fqsl
          (SymbolLink.from_fqsl ((".a.b").toList) [("a").toList, ("a.b").toList]) ≠
        (".a.b").toList)
    ∧ ((∀ q ∈ [("p").toList], ¬ q <+: (("..X").toList.drop 1))
      ∧ SymbolLink.fqsl (SymbolLink.from_fqsl (("..X").toList) [("p").toList]) =
          ("..X").toList
      ∧ SymbolLink.fqsl (SymbolLink.from_fqsl (("..X").toList) [("p").toList]) ≠
          '.' :: '.' :: (("..X").toList.drop 1)) := by
  refine ⟨⟨by decide, by decide, by decide, by decide⟩, ?_, by decide, by decide⟩
  decide

/-- C10 amended: `fqsl()` round-trips the original name exactly when the
longest matching known package is followed by a separator (and contains no
slash): for `.{pkg}.{rest}` with `pkg` known, slash-free, and no longer known
package matching, `fqsl() = name` (property suffix included); and for a name
`.{rest}` where `rest` does not itself start with `.` and no known package
matches, `fqsl()` is the name with one more leading dot. -/
theorem claim_C10 :
    (∀ (name core : Str) (packages : List Str) (pkg restCore : Str) (prop : Option Str),
      SymbolLink.split_property name = (core, prop) →
      core = '.' :: pkg ++ '.' :: restCore →
      pkg ∈ packages → '/' ∉ pkg →
      (∀ q ∈ packages, q <+: (pkg ++ '.' :: restCore) → q.length ≤ pkg.length) →
      SymbolLink.fqsl (SymbolLink.from_fqsl name packages) = name)
    ∧ (∀ (name core : Str) (packages : List Str) (prop : Option Str),
      SymbolLink.split_property name = (core, prop) →
      (∃ r, core = '.' :: r ∧ ¬ (['.'] <+: r)) →
      (∀ q ∈ packages, ¬ q <+: core.drop 1) →
      SymbolLink.fqsl (SymbolLink.from_fqsl name packages) = '.' :: name) := by
  constructor
  · intro name core packages pkg restCore prop hsplit hcore hmem hslash hmax
    subst hcore
    have hpre : pkg <+: (pkg ++ '.' :: restCore) := List.prefix_append pkg _
    have hbest : SymbolLink.find_best_match ('.' :: pkg ++ '.' :: restCore) packages = some pkg :=
      find_best_match_eq_some hmem hpre hmax
    have halign : (pkg ++ ['.']) <+: (pkg ++ '.' :: restCore) :=
      ⟨restCore, by simp⟩
    have hres := from_fqsl_eq_of_best hsplit hbest halign
    have hdrop : (('.' :: pkg ++ '.' :: restCore).drop 1).drop (pkg.length + 1) = restCore := by
      have : ('.' :: pkg ++ '.' :: restCore).drop 1 = (pkg ++ ['.']) ++ restCore := by
        simp
      rw [this]
      rw [List.drop_left']
      simp
    rw [hres]
    have hname := split_property_append hsplit
    unfold SymbolLink.fqsl SymbolLink.id
    cases prop with
    | none =>
      simp only [hdrop, replaceChar_roundtrip hslash]
      rw [hname]
      simp
    | some p =>
      simp only [hdrop, replaceChar_roundtrip hslash]
      rw [hname]
      simp
  · intro name core packages prop hsplit hshape hnone
    obtain ⟨r, hcore, hnd⟩ := hshape
    have hbest : SymbolLink.find_best_match core packages = none :=
      find_best_match_eq_none hnone
    have hres := from_fqsl_eq_of_none hsplit hbest (by rw [hcore]; simpa using hnd)
    rw [hres]
    have hname := split_property_append hsplit
    unfold SymbolLink.fqsl SymbolLink.id
    cases prop with
    | none =>
      subst hcore
      rw [hname]
      simp [replaceChar]
    | some p =>
      subst hcore
      rw [hname]
      simp [replaceChar]

/-- C10 witness: discharging the amended hypotheses on the round-trip
example `.package.Service::FooCall` and on the no-match example `.Foo`. -/
theorem claim_C10_witness :
    SymbolLink.fqsl
        (SymbolLink.from_fqsl ((".package.Service::FooCall").toList) [("package").toList]) =
      (".package.Service::FooCall").toList
    ∧ SymbolLink.fqsl (SymbolLink.from_fqsl ((".Foo").toList) [("package").toList]) =
      '.' :: (".Foo").toList := by
  constructor
  · exact claim_C10.1 ((".package.Service::FooCall").toList) ((".package.Service").toList)
      [("package").toList] (("package").toList) (("Service").toList)
      (some (("FooCall").toList)) (by decide) (by decide) (by decide) (by decide)
      (by decide)
  · exact claim_C10.2 ((".Foo").toList) ((".Foo").toList) [("package").toList] none
      (by decide) ⟨("Foo").toList, by decide, by decide⟩ (by decide)

/-! ## Lemmas about the query resolver and content rewriter -/

/-- `protoBang` is injective: distinct canonical strings give distinct
replacement queries. -/
theorem protoBang_inj {a b : Str} (h : protoBang a = protoBang b) : a = b := by
  unfold protoBang at h
  exact List.append_cancel_left (List.append_cancel_right h)

/-- Whether a candidate matches a query depends only on its canonical
string. -/
theorem matchesQuery_congr {a b : SymbolLink} (h : a.fqsl = b.fqsl) (q : Str) :
    a.matchesQuery q = b.matchesQuery q := by
  unfold SymbolLink.matchesQuery
  rw [h]

/-- Membership is preserved by the insertion step of the stable sort. -/
theorem mem_insertByKey {x a : Str × Int} {l : List (Str × Int)} :
    a ∈ insertByKey x l ↔ a = x ∨ a ∈ l := by
  induction l with
  | nil => simp [insertByKey]
  | cons y ys ih =>
    unfold insertByKey
    by_cases hc : x.2 ≤ y.2
    · simp [hc]
    · simp only [hc, if_false, List.mem_cons, ih]
      tauto

/-- `sort_by_key` permutes: membership is unchanged. -/
theorem mem_sortByKey {a : Str × Int} {l : List (Str × Int)} :
    a ∈ sortByKey l ↔ a ∈ l := by
  induction l with
  | nil => simp [sortByKey]
  | cons x xs ih =>
    unfold sortByKey
    rw [mem_insertByKey, ih, List.mem_cons]

/-- Inserting into an ascending list keeps it ascending. -/
theorem pairwise_insertByKey {x : Str × Int} {l : List (Str × Int)}
    (h : l.Pairwise (fun a b => a.2 ≤ b.2)) :
    (insertByKey x l).Pairwise (fun a b => a.2 ≤ b.2) := by
  induction l with
  | nil => simp [insertByKey]
  | cons y ys ih =>
    rw [List.pairwise_cons] at h
    unfold insertByKey
    by_cases hc : x.2 ≤ y.2
    · simp only [hc, if_true]
      rw [List.pairwise_cons]
      refine ⟨?_, List.pairwise_cons.mpr h⟩
      intro z hz
      rcases List.mem_cons.mp hz with hzy | hzys
      · exact hzy ▸ hc
      · exact le_trans hc (h.1 z hzys)
    · simp only [hc, if_false]
      rw [List.pairwise_cons]
      refine ⟨?_, ih h.2⟩
      intro z hz
      rcases mem_insertByKey.mp hz with hzx | hzys
      · exact hzx ▸ le_of_not_le hc
      · exact h.1 z hzys

/-- `sort_by_key` sorts ascending by score. -/
theorem sortByKey_pairwise (l : List (Str × Int)) :
    (sortByKey l).Pairwise (fun a b => a.2 ≤ b.2) := by
  induction l with
  | nil => simp [sortByKey]
  | cons x xs ih => exact pairwise_insertByKey ih

/-- An error from the first event of a page aborts `link_proto_symbols` with
that error. -/
theorem linkEvents_cons_error {score : Str → Str → Int} {links : List SymbolLink}
    {chapter_name : Str} {chapter_path : Option Str} {st : LinkState} {e : Event}
    {rest : List Event} {msg : Str}
    (h : processEvent score links chapter_name chapter_path st e = .error msg) :
    linkEvents score links chapter_name chapter_path st (e :: rest) = .error msg := by
  unfold linkEvents
  rw [h]

/-- C4: a query that two or more known identities suffix-match makes
`link_proto_symbols` fail the page with the ambiguity error whose list of
`proto!(..)` replacements contains the canonical string of every matching
candidate and of no non-matching one. -/
theorem claim_C4 (score : Str → Str → Int) (chapter_name : Str)
    (chapter_path : Option Str) (usages : UsageMap) (d q : Str) (rest : List Event)
    (hq : protoQuery? d = some q)
    (hcount : 2 ≤ ((usages.map Prod.fst).filter (fun s => s.matchesQuery q)).length) :
    (link_proto_symbols score chapter_name chapter_path (Event.startLink d :: rest) usages
      = .error
        (("More than one protobuf symbol matched your query. Replace your link with one of the following:\n").toList
          ++ joinLines (((usages.map Prod.fst).filter (fun s => s.matchesQuery q)).map
              (fun s => protoBang s.fqsl))))
    ∧ ∀ s ∈ usages.map Prod.fst,
        (s.matchesQuery q = true ↔
          protoBang s.fqsl ∈ ((usages.map Prod.fst).filter
            (fun s => s.matchesQuery q)).map (fun s => protoBang s.fqsl)) := by
  constructor
  · cases hms : (usages.map Prod.fst).filter (fun s => s.matchesQuery q) with
    | nil => rw [hms] at hcount; simp at hcount
    | cons a t =>
      cases t with
      | nil => rw [hms] at hcount; simp at hcount
      | cons b t' =>
        have hstep : processEvent score (usages.map Prod.fst) chapter_name chapter_path
            { usages := usages, current_link := none, chapter_link_id := 1 }
            (Event.startLink d) = .error (tooManyError (a :: b :: t')) := by
          simp only [processEvent]
          rw [hq]
          simp only [handleProtoLink, hms, Except.map]
        unfold link_proto_symbols
        rw [linkEvents_cons_error hstep]
        rw [← hms]
        rfl
  · intro s hs
    constructor
    · intro hm
      exact List.mem_map_of_mem _ (List.mem_filter.mpr ⟨hs, hm⟩)
    · intro hm
      obtain ⟨s', hs', heq⟩ := List.mem_map.mp hm
      have hfq : s'.fqsl = s.fqsl := protoBang_inj heq
      rw [← matchesQuery_congr hfq q]
      exact (List.mem_filter.mp hs').2

/-- C4 witness: the claim's example — `HelloWorld` against
`{.hello.HelloWorld, .other.namespace.HelloWorld, .other.namespace.Unrelated}`
fails enumerating exactly the two `HelloWorld` candidates. -/
theorem claim_C4_witness :
    link_proto_symbols (fun _ _ => 0) (("page").toList) none
      [Event.startLink (("proto!(HelloWorld)").toList)]
      [(SymbolLink.from_fqsl ((".hello.HelloWorld").toList)
          [("hello").toList, ("other.namespace").toList], []),
       (SymbolLink.from_fqsl ((".other.namespace.HelloWorld").toList)
          [("hello").toList, ("other.namespace").toList], []),
       (SymbolLink.from_fqsl ((".other.namespace.Unrelated").toList)
          [("hello").toList, ("other.namespace").toList], [])]
      = .error
        (("More than one protobuf symbol matched your query. Replace your link with one of the following:\nproto!(.hello.HelloWorld)\nproto!(.other.namespace.HelloWorld)").toList) := by
  have h := (claim_C4 (fun _ _ => 0) (("page").toList) none
      [(SymbolLink.from_fqsl ((".hello.HelloWorld").toList)
          [("hello").toList, ("other.namespace").toList], []),
       (SymbolLink.from_fqsl ((".other.namespace.HelloWorld").toList)
          [("hello").toList, ("other.namespace").toList], []),
       (SymbolLink.from_fqsl ((".other.namespace.Unrelated").toList)
          [("hello").toList, ("other.namespace").toList], [])]
      (("proto!(HelloWorld)").toList) (("HelloWorld").toList) [] (by decide) (by decide)).1
  rw [h]
  exact congrArg Except.error (by decide)

/-- C5: a query that no known identity suffix-matches makes
`link_proto_symbols` fail with the no-match error; the suggestions it carries
are at most three, each a positively-scoring candidate's replacement query,
listed in descending score order; they are empty exactly when no candidate
scores positively, in which case the error instead samples up to three known
symbols as valid-format examples. -/
theorem claim_C5 (score : Str → Str → Int) (chapter_name : Str)
    (chapter_path : Option Str) (usages : UsageMap) (d q : Str) (rest : List Event)
    (hq : protoQuery? d = some q)
    (hzero : ∀ s ∈ usages.map Prod.fst, s.matchesQuery q = false) :
    (link_proto_symbols score chapter_name chapter_path (Event.startLink d :: rest) usages
      = .error (noMatchError score (usages.map Prod.fst) q))
    ∧ (suggestionList score (usages.map Prod.fst) q).length ≤ 3
    ∧ (∀ sug ∈ suggestionList score (usages.map Prod.fst) q,
        ∃ l ∈ usages.map Prod.fst, sug = protoBang l.fqsl ∧ 0 < score l.fqsl q)
    ∧ List.Pairwise (fun a b => b.2 ≤ a.2)
        ((((scoredLinks score (usages.map Prod.fst) q).reverse).filter
          (fun p => 0 < p.2)).take 3)
    ∧ ((suggestionList score (usages.map Prod.fst) q = []) ↔
        ∀ l ∈ usages.map Prod.fst, score l.fqsl q ≤ 0)
    ∧ (suggestionList score (usages.map Prod.fst) q = [] →
        noMatchError score (usages.map Prod.fst) q =
          ("No protobuf symbol matched your query `").toList ++ q ++
            ("`, or was similar. Sample of valid formats:\n").toList ++
            joinLines (((scoredLinks score (usages.map Prod.fst) q).map
              (fun p => protoBang p.1)).take 3))
    ∧ (suggestionList score (usages.map Prod.fst) q ≠ [] →
        noMatchError score (usages.map Prod.fst) q =
          ("No protobuf symbol matched your query `").toList ++ q ++
            ("`, consider one of the following near matches:\n").toList ++
            joinLines (suggestionList score (usages.map Prod.fst) q)) := by
  have hms : (usages.map Prod.fst).filter (fun s => s.matchesQuery q) = [] := by
    rw [List.filter_eq_nil_iff]
    intro a ha
    rw [hzero a ha]
    simp
  refine ⟨?_, ?_, ?_, ?_, ?_, ?_, ?_⟩
  · have hstep : processEvent score (usages.map Prod.fst) chapter_name chapter_path
        { usages := usages, current_link := none, chapter_link_id := 1 }
        (Event.startLink d) = .error (noMatchError score (usages.map Prod.fst) q) := by
      simp only [processEvent]
      rw [hq]
      simp only [handleProtoLink, hms, Except.map]
    unfold link_proto_symbols
    rw [linkEvents_cons_error hstep]
  · unfold suggestionList
    rw [List.length_map]
    exact List.length_take_le 3 _
  · intro sug hsug
    unfold suggestionList at hsug
    obtain ⟨p, hp, rfl⟩ := List.mem_map.mp hsug
    have hp2 : p ∈ ((scoredLinks score (usages.map Prod.fst) q).reverse).filter
        (fun p => 0 < p.2) := List.mem_of_mem_take hp
    have hpm := List.mem_filter.mp hp2
    have hpos : (0 : Int) < p.2 := by simpa using hpm.2
    have hpin : p ∈ scoredLinks score (usages.map Prod.fst) q :=
      List.mem_reverse.mp hpm.1
    unfold scoredLinks at hpin
    rw [mem_sortByKey] at hpin
    obtain ⟨l, hl, rfl⟩ := List.mem_map.mp hpin
    exact ⟨l, hl, rfl, hpos⟩
  · exact List.Pairwise.sublist (List.take_sublist 3 _)
      (List.Pairwise.filter _
        (List.pairwise_reverse.mpr (sortByKey_pairwise _)))
  · unfold suggestionList
    rw [List.map_eq_nil_iff, List.take_eq_nil_iff]
    constructor
    · rintro (h3 | hfil)
      · simp at h3
      · intro l hl
        rw [List.filter_eq_nil_iff] at hfil
        have hmem : (l.fqsl, score l.fqsl q) ∈ (scoredLinks score (usages.map Prod.fst) q).reverse := by
          rw [List.mem_reverse]
          unfold scoredLinks
          rw [mem_sortByKey]
          exact List.mem_map_of_mem _ hl
        have := hfil _ hmem
        simpa [Int.not_lt] using this
    · intro hle
      right
      rw [List.filter_eq_nil_iff]
      intro p hp
      rw [List.mem_reverse] at hp
      unfold scoredLinks at hp
      rw [mem_sortByKey] at hp
      obtain ⟨l, hl, rfl⟩ := List.mem_map.mp hp
      simpa [Int.not_lt] using hle l hl
  · intro hemp
    unfold noMatchError
    rw [if_pos hemp]
  · intro hne
    unfold noMatchError
    rw [if_neg hne]

/-- C5 witness: the claim's example — `HelloWord` against
`{.hello.HelloWorld, .hello.GoodbyeWorld}` (with a score valuing only the
`HelloWorld` candidate positively, as the skim matcher does on this input)
fails naming `.hello.HelloWorld` as the sole near-match suggestion. -/
theorem claim_C5_witness :
    link_proto_symbols
      (fun f _ => if f = (".hello.HelloWorld").toList then 1 else 0)
      (("page").toList) none
      [Event.startLink (("proto!(HelloWord)").toList)]
      [(SymbolLink.from_fqsl ((".hello.HelloWorld").toList)
          [("hello").toList, ("other").toList], []),
       (SymbolLink.from_fqsl ((".hello.GoodbyeWorld").toList)
          [("hello").toList, ("other").toList], [])]
      = .error
        (("No protobuf symbol matched your query `HelloWord`, consider one of the following near matches:\nproto!(.hello.HelloWorld)").toList) := by
  have h := (claim_C5
      (fun f _ => if f = (".hello.HelloWorld").toList then 1 else 0)
      (("page").toList) none
      [(SymbolLink.from_fqsl ((".hello.HelloWorld").toList)
          [("hello").toList, ("other").toList], []),
       (SymbolLink.from_fqsl ((".hello.GoodbyeWorld").toList)
          [("hello").toList, ("other").toList], [])]
      (("proto!(HelloWord)").toList) (("HelloWord").toList) [] (by decide) (by decide)).1
  rw [h]
  exact congrArg Except.error (by decide)

/-- C7: rewriting a page consisting of one resolved reference
(`[t](proto!(q))`, i.e. link start, inner text, link end).  With a routing
path the target's edge list gains exactly one Content backlink carrying the
page's path, the id `<counter><canonical string>` built from the 1-based
page-scoped citation counter, and the label `<title>[<counter>]`; without a
routing path (a draft) the graph is untouched — while in both cases the
reference itself is resolved and rewritten to the rendered inline anchor. -/
theorem claim_C7 (score : Str → Str → Int) (chapter_name : Str)
    (chapter_path : Option Str) (usages : UsageMap) (d q t : Str) (s : SymbolLink)
    (hq : protoQuery? d = some q)
    (hone : (usages.map Prod.fst).filter (fun s => s.matchesQuery q) = [s]) :
    link_proto_symbols score chapter_name chapter_path
        [Event.startLink d, Event.text t, Event.endLink] usages =
      match chapter_path with
      | some p =>
        .ok ([Event.inlineHtml (((s.set_own_id (natToStr 1 ++ s.fqsl)).set_label t).render)],
          entryPush usages s (Backlink.content
            { path := p, id := natToStr 1 ++ s.fqsl,
              label := chapter_name ++ '[' :: (natToStr 1 ++ [']']) }))
      | none =>
        .ok ([Event.inlineHtml ((s.set_label t).render)], usages) := by
  cases chapter_path with
  | some p =>
    simp only [link_proto_symbols, linkEvents, processEvent, hq, handleProtoLink, hone,
      Except.map]
  | none =>
    simp only [link_proto_symbols, linkEvents, processEvent, hq, handleProtoLink, hone,
      Except.map]

/-- C7 witness: the unique-suffix example of the spec, on a page with a
routing path — the edge list of `.hello.HelloWorld` gains the Content
backlink `(docs/page.md, 1.hello.HelloWorld, page[1])` and the reference is
rewritten to the rendered anchor. -/
theorem claim_C7_witness :
    link_proto_symbols (fun _ _ => 0) (("page").toList) (some (("docs/page.md").toList))
      [Event.startLink (("proto!(HelloWorld)").toList),
       Event.text (("proto link").toList), Event.endLink]
      [(SymbolLink.from_fqsl ((".hello.HelloWorld").toList) [("hello").toList], [])]
      = .ok
        ([Event.inlineHtml
            ((((SymbolLink.from_fqsl ((".hello.HelloWorld").toList) [("hello").toList]).set_own_id
                (natToStr 1 ++
                  (SymbolLink.from_fqsl ((".hello.HelloWorld").toList) [("hello").toList]).fqsl)).set_label
              (("proto link").toList)).render)],
          entryPush
            [(SymbolLink.from_fqsl ((".hello.HelloWorld").toList) [("hello").toList], [])]
            (SymbolLink.from_fqsl ((".hello.HelloWorld").toList) [("hello").toList])
            (Backlink.content
              { path := ("docs/page.md").toList,
                id := natToStr 1 ++
                  (SymbolLink.from_fqsl ((".hello.HelloWorld").toList) [("hello").toList]).fqsl,
                label := ("page").toList ++ '[' :: (natToStr 1 ++ [']']) })) :=
  claim_C7 (fun _ _ => 0) (("page").toList) (some (("docs/page.md").toList))
    [(SymbolLink.from_fqsl ((".hello.HelloWorld").toList) [("hello").toList], [])]
    (("proto!(HelloWorld)").toList) (("HelloWorld").toList) (("proto link").toList)
    (SymbolLink.from_fqsl ((".hello.HelloWorld").toList) [("hello").toList])
    (by decide) (by decide)

/-- A page whose event stream carries no `proto!` reference is passed through
unchanged by the event fold, with the usage map untouched, from any state
with no pending link. -/
theorem linkEvents_neutral (score : Str → Str → Int) (links : List SymbolLink)
    (chapter_name : Str) (chapter_path : Option Str) :
    ∀ (events : List Event) (st : LinkState), st.current_link = none →
      (∀ d, Event.startLink d ∈ events → protoQuery? d = none) →
      linkEvents score links chapter_name chapter_path st events = .ok (events, st.usages) := by
  intro events
  induction events with
  | nil => intro st _ _; rfl
  | cons e rest ih =>
    intro st hcur hno
    have hrest : ∀ d, Event.startLink d ∈ rest → protoQuery? d = none :=
      fun d hd => hno d (List.mem_cons_of_mem _ hd)
    cases e with
    | startLink d =>
      have hd : protoQuery? d = none := hno d (List.mem_cons_self _ _)
      unfold linkEvents
      simp only [processEvent, hd]
      rw [ih st hcur hrest]
    | text s =>
      unfold linkEvents
      simp only [processEvent, hcur]
      rw [ih st hcur hrest]
    | endLink =>
      unfold linkEvents
      simp only [processEvent, hcur]
      rw [ih st hcur hrest]
    | inlineHtml s =>
      unfold linkEvents
      simp only [processEvent]
      rw [ih st hcur hrest]
    | other n =>
      unfold linkEvents
      simp only [processEvent]
      rw [ih st hcur hrest]

/-- C9: a page whose prose contains no link destination matching the
`proto!(<query>)` pattern is left intact: `link_proto_symbols` succeeds, the
cross-reference graph is unchanged, and — given that the external
markdown decode/encode pair reproduces the content, as spec §4.3 requires of
it — the content is byte-identical. -/
theorem claim_C9 (parse : Str → List Event) (serialize : List Event → Str)
    (score : Str → Str → Int) (chapter_name : Str) (chapter_path : Option Str)
    (content : Str) (usages : UsageMap)
    (hnoref : ∀ d, Event.startLink d ∈ parse content → protoQuery? d = none)
    (hroundtrip : serialize (parse content) = content) :
    link_proto_symbols_content parse serialize score chapter_name chapter_path
      content usages = .ok (content, usages) := by
  unfold link_proto_symbols_content link_proto_symbols
  rw [linkEvents_neutral score (usages.map Prod.fst) chapter_name chapter_path
    (parse content) { usages := usages, current_link := none, chapter_link_id := 1 }
    rfl hnoref]
  simp only [hroundtrip]

/-- C9 witness: a concrete page of non-reference events (text, a non-proto
link, raw inline html, an opaque footnote event) round-trips unchanged. -/
theorem claim_C9_witness :
    link_proto_symbols_content
      (fun _ => [Event.text (("Lorem ipsum").toList),
        Event.startLink (("https://example.com").toList), Event.text (("external link").toList),
        Event.endLink, Event.inlineHtml (("<a href=\"foobar\">inside</a>").toList),
        Event.other 0])
      (fun _ => ("page content").toList)
      (fun _ _ => 0) (("page").toList) none (("page content").toList)
      [(plainLinkA, [])]
      = .ok ((("page content").toList), [(plainLinkA, [])]) := by
  apply claim_C9
  · intro d hd
    simp only [List.mem_cons] at hd
    rcases hd with h | h | h | h | h | h | h
    · exact absurd h (by simp)
    · rw [Event.startLink.injEq] at h
      subst h
      decide
    · exact absurd h (by simp)
    · exact absurd h (by simp)
    · exact absurd h (by simp)
    · exact absurd h (by simp)
    · exact absurd h (by simp)
  · rfl

/-! ## Lemmas about the cross-reference graph -/

/-- Pushing onto an entry appends to exactly that key's edge list. -/
theorem usagesGet_entryPush_self (m : UsageMap) (k : SymbolLink) (b : Backlink) :
    usagesGet (entryPush m k b) k = usagesGet m k ++ [b] := by
  induction m with
  | nil => simp [entryPush, usagesGet]
  | cons kv rest ih =>
    obtain ⟨k', v⟩ := kv
    unfold entryPush usagesGet
    by_cases h : k' = k
    · simp [h]
    · simp [h, ih]

/-- Pushing onto an entry leaves every other key's edge list unchanged. -/
theorem usagesGet_entryPush_ne (m : UsageMap) (k k' : SymbolLink) (b : Backlink)
    (h : k ≠ k') : usagesGet (entryPush m k b) k' = usagesGet m k' := by
  induction m with
  | nil => simp [entryPush, usagesGet, h]
  | cons kv rest ih =>
    obtain ⟨k'', v⟩ := kv
    unfold entryPush usagesGet
    by_cases h2 : k'' = k
    · subst h2
      simp [h]
    · simp [h2, ih]

/-- An edge present before a push is present after it. -/
theorem mem_usagesGet_entryPush {m : UsageMap} {k k' : SymbolLink} {b b' : Backlink}
    (h : b' ∈ usagesGet m k') : b' ∈ usagesGet (entryPush m k b) k' := by
  by_cases hk : k = k'
  · subst hk
    rw [usagesGet_entryPush_self]
    exact List.mem_append_left _ h
  · rw [usagesGet_entryPush_ne m k k' b hk]
    exact h

/-- The pushed edge is present after the push. -/
theorem mem_usagesGet_entryPush_self (m : UsageMap) (k : SymbolLink) (b : Backlink) :
    b ∈ usagesGet (entryPush m k b) k := by
  rw [usagesGet_entryPush_self]
  exact List.mem_append_right _ (List.mem_singleton.mpr rfl)

/-- `or_default` without a push changes no edge list. -/
theorem usagesGet_entryDefault (m : UsageMap) (k k' : SymbolLink) :
    usagesGet (entryDefault m k) k' = usagesGet m k' := by
  induction m with
  | nil =>
    unfold entryDefault usagesGet
    by_cases h : k = k' <;> simp [h, usagesGet]
  | cons kv rest ih =>
    obtain ⟨k'', v⟩ := kv
    unfold entryDefault usagesGet
    by_cases h : k'' = k
    · simp [h]
    · by_cases h2 : k'' = k'
      · subst h2
        simp [h, ih, usagesGet]
      · simp [h, h2, ih, usagesGet]

/-- Graph extension: every edge of `m` is an edge of `m'`.  All indexing
steps only extend the graph. -/
def UsageLe (m m' : UsageMap) : Prop :=
  ∀ k b, b ∈ usagesGet m k → b ∈ usagesGet m' k

theorem UsageLe.rfl (m : UsageMap) : UsageLe m m := fun _ _ h => h

theorem UsageLe.trans {a b c : UsageMap} (h1 : UsageLe a b) (h2 : UsageLe b c) :
    UsageLe a c := fun k x h => h2 k x (h1 k x h)

theorem entryPush_le (m : UsageMap) (k : SymbolLink) (b : Backlink) :
    UsageLe m (entryPush m k b) := fun _ _ h => mem_usagesGet_entryPush h

theorem entryDefault_le (m : UsageMap) (k : SymbolLink) :
    UsageLe m (entryDefault m k) := fun k' b h => by
  rw [usagesGet_entryDefault]
  exact h

/-- The field loop only extends the graph. -/
theorem processFieldBacklinks_le (self_link : SymbolLink) (fields : List SimpleField) :
    ∀ usages, UsageLe usages (processFieldBacklinks self_link fields usages) := by
  induction fields with
  | nil => intro u; exact UsageLe.rfl u
  | cons f fs ih =>
    intro u
    unfold processFieldBacklinks
    rw [List.foldl_cons]
    refine UsageLe.trans ?_ (ih _)
    cases htyp : f.typ with
    | Symbol s =>
      simp only [htyp]
      exact entryPush_le u s _
    | Primitive t =>
      simp only [htyp]
      exact UsageLe.rfl u
    | Unimplemented =>
      simp only [htyp]
      exact UsageLe.rfl u

/-- The field loop records, for every field of Symbol type, the backlink from
the owning message (qualified by the field name) on the resolved type's edge
list. -/
theorem mem_processFieldBacklinks (self_link : SymbolLink) (f : SimpleField)
    (t : SymbolLink) (ht : f.typ = FieldType.Symbol t) :
    ∀ (fields : List SimpleField) (usages : UsageMap), f ∈ fields →
      Backlink.symbol (self_link.set_property f.name) ∈
        usagesGet (processFieldBacklinks self_link fields usages) t := by
  intro fields
  induction fields with
  | nil => intro u h; cases h
  | cons g fs ih =>
    intro u hmem
    unfold processFieldBacklinks
    rw [List.foldl_cons]
    rcases List.mem_cons.mp hmem with heq | hmem'
    · subst heq
      simp only [ht]
      exact processFieldBacklinks_le self_link fs _ t _ (mem_usagesGet_entryPush_self u t _)
    · exact ih _ hmem'

mutual
/-- Indexing a message tree only extends the graph. -/
theorem from_descriptor_le (md : DescriptorProto) (parent : List Str)
    (packages : List Str) (package : Str) (usages : UsageMap) :
    UsageLe usages (ProtoMessage.from_descriptor md parent packages package usages).2 :=
  match md with
  | .mk name fieldDescs nested _enums =>
    UsageLe.trans
      (processFieldBacklinks_le
        (SymbolLink.from_fqsl (mkFqsl package (parent ++ [name])) packages)
        (fieldDescs.map (fun f => SimpleField.from_descriptor f packages
          (SymbolLink.from_fqsl (mkFqsl package (parent ++ [name])) packages)))
        usages)
      (from_descriptor_list_le nested (parent ++ [name]) packages package _)

/-- Indexing a list of message trees only extends the graph. -/
theorem from_descriptor_list_le (mds : DescriptorProtoList) (parent : List Str)
    (packages : List Str) (package : Str) (usages : UsageMap) :
    UsageLe usages (ProtoMessage.from_descriptor_list mds parent packages package usages).2 :=
  match mds with
  | .nil => UsageLe.rfl usages
  | .cons m rest =>
    UsageLe.trans (from_descriptor_le m parent packages package usages)
      (from_descriptor_list_le rest parent packages package _)
end

/-- Every Symbol-typed field of an indexed message deposits its backlink in
the graph produced by `ProtoMessage::from_descriptor` on that message. -/
theorem mem_from_descriptor_of_field (md : DescriptorProto) (parent : List Str)
    (packages : List Str) (package : Str) (usages : UsageMap)
    (f : FieldDescriptorProto) (hf : f ∈ md.field) (t : SymbolLink)
    (ht : (SimpleField.from_descriptor f packages
        (SymbolLink.from_fqsl (mkFqsl package (parent ++ [md.name])) packages)).typ =
      FieldType.Symbol t) :
    Backlink.symbol
        ((SymbolLink.from_fqsl (mkFqsl package (parent ++ [md.name])) packages).set_property
          f.name)
      ∈ usagesGet (ProtoMessage.from_descriptor md parent packages package usages).2 t := by
  obtain ⟨name, fieldDescs, nested, _enums⟩ := md
  simp only [DescriptorProto.name] at ht ⊢
  simp only [DescriptorProto.field] at hf
  simp only [ProtoMessage.from_descriptor]
  apply from_descriptor_list_le nested (parent ++ [name]) packages package _ t _
  have hsf : SimpleField.from_descriptor f packages
      (SymbolLink.from_fqsl (mkFqsl package (parent ++ [name])) packages) ∈
      fieldDescs.map (fun g => SimpleField.from_descriptor g packages
        (SymbolLink.from_fqsl (mkFqsl package (parent ++ [name])) packages)) :=
    List.mem_map_of_mem _ hf
  have hname : (SimpleField.from_descriptor f packages
      (SymbolLink.from_fqsl (mkFqsl package (parent ++ [name])) packages)).name = f.name := rfl
  have := mem_processFieldBacklinks
    (SymbolLink.from_fqsl (mkFqsl package (parent ++ [name])) packages)
    (SimpleField.from_descriptor f packages
      (SymbolLink.from_fqsl (mkFqsl package (parent ++ [name])) packages))
    t ht _ usages hsf
  rw [hname] at this
  exact this

/-- A property that holds of indexing one member message (over every starting
graph) transfers to indexing the whole list. -/
theorem mem_from_descriptor_list_of_all (m' : DescriptorProto) (p : List Str)
    (packages : List Str) (package : Str) (k : SymbolLink) (b : Backlink)
    (hall : ∀ u, b ∈ usagesGet (ProtoMessage.from_descriptor m' p packages package u).2 k) :
    ∀ (mds : DescriptorProtoList), m' ∈ mds.toList →
      ∀ u, b ∈ usagesGet (ProtoMessage.from_descriptor_list mds p packages package u).2 k
  | .nil, hmem, _ => absurd hmem (by simp [DescriptorProtoList.toList])
  | .cons m rest, hmem, u => by
    have hmem2 : m' = m ∨ m' ∈ rest.toList := by
      simpa [DescriptorProtoList.toList] using hmem
    simp only [ProtoMessage.from_descriptor_list]
    rcases hmem2 with heq | hmem'
    · subst heq
      exact from_descriptor_list_le rest p packages package _ k b (hall u)
    · exact mem_from_descriptor_list_of_all m' p packages package k b hall rest hmem' _

/-- A backlink deposited by indexing an inner (arbitrarily nested) message is
present after indexing the outer message, for every starting graph. -/
theorem mem_from_descriptor_of_msgIn {inner : DescriptorProto} {pi : List Str}
    {md : DescriptorProto} {parent : List Str}
    (h : MsgIn inner pi md parent) (packages : List Str) (package : Str)
    (k : SymbolLink) (b : Backlink)
    (hall : ∀ u, b ∈ usagesGet (ProtoMessage.from_descriptor inner pi packages package u).2 k) :
    ∀ u, b ∈ usagesGet (ProtoMessage.from_descriptor md parent packages package u).2 k := by
  induction h with
  | here => exact hall
  | nested m' md2 parent2 hm hmsg ih =>
    intro u
    obtain ⟨name, fieldDescs, nested, enums⟩ := md2
    simp only [DescriptorProto.nested_type] at hm
    simp only [DescriptorProto.name] at ih
    simp only [ProtoMessage.from_descriptor]
    exact mem_from_descriptor_list_of_all m' (parent2 ++ [name]) packages package k b
      ih nested hm _

/-- The method loop only extends the graph. -/
theorem processMethods_le (packages : List Str) (service_link : SymbolLink)
    (ms : List MethodDescriptorProto) :
    ∀ usages, UsageLe usages (processMethods packages service_link ms usages).2 := by
  induction ms with
  | nil => intro u; exact UsageLe.rfl u
  | cons m rest ih =>
    intro u
    simp only [processMethods]
    exact UsageLe.trans (entryDefault_le u _)
      (UsageLe.trans (entryPush_le _ _ _)
        (UsageLe.trans (entryPush_le _ _ _) (ih _)))

/-- The method loop records each method's Symbol backlink on both the request
type's and the response type's edge list. -/
theorem mem_processMethods (packages : List Str) (service_link : SymbolLink)
    (m : MethodDescriptorProto) :
    ∀ (ms : List MethodDescriptorProto) (usages : UsageMap), m ∈ ms →
      Backlink.symbol (service_link.set_property m.name) ∈
        usagesGet (processMethods packages service_link ms usages).2
          (SymbolLink.from_fqsl m.input_type packages)
      ∧ Backlink.symbol (service_link.set_property m.name) ∈
        usagesGet (processMethods packages service_link ms usages).2
          (SymbolLink.from_fqsl m.output_type packages) := by
  intro ms
  induction ms with
  | nil => intro u h; cases h
  | cons m0 rest ih =>
    intro u hmem
    simp only [processMethods]
    rcases List.mem_cons.mp hmem with heq | hmem'
    · subst heq
      constructor
      · apply processMethods_le packages service_link rest _ _ _
        apply mem_usagesGet_entryPush
        exact mem_usagesGet_entryPush_self _ _ _
      · apply processMethods_le packages service_link rest _ _ _
        exact mem_usagesGet_entryPush_self _ _ _
    · exact ih _ hmem'

/-- The service loop only extends the graph. -/
theorem processServices_le (packages : List Str) (package : Str)
    (ss : List ServiceDescriptorProto) :
    ∀ usages, UsageLe usages (processServices packages package ss usages).2 := by
  induction ss with
  | nil => intro u; exact UsageLe.rfl u
  | cons s rest ih =>
    intro u
    simp only [processServices]
    exact UsageLe.trans (entryDefault_le u _)
      (UsageLe.trans (processMethods_le packages _ s.method _) (ih _))

/-- The service loop records every method's backlinks on its request and
response types. -/
theorem mem_processServices (packages : List Str) (package : Str)
    (s : ServiceDescriptorProto) (m : MethodDescriptorProto) (hm : m ∈ s.method) :
    ∀ (ss : List ServiceDescriptorProto) (usages : UsageMap), s ∈ ss →
      Backlink.symbol
          ((SymbolLink.from_fqsl (mkFqsl package [s.name]) packages).set_property m.name) ∈
        usagesGet (processServices packages package ss usages).2
          (SymbolLink.from_fqsl m.input_type packages)
      ∧ Backlink.symbol
          ((SymbolLink.from_fqsl (mkFqsl package [s.name]) packages).set_property m.name) ∈
        usagesGet (processServices packages package ss usages).2
          (SymbolLink.from_fqsl m.output_type packages) := by
  intro ss
  induction ss with
  | nil => intro u h; cases h
  | cons s0 rest ih =>
    intro u hmem
    simp only [processServices]
    rcases List.mem_cons.mp hmem with heq | hmem'
    · subst heq
      have hboth := mem_processMethods packages
        (SymbolLink.from_fqsl (mkFqsl package [s.name]) packages) m s.method
        (entryDefault u (SymbolLink.from_fqsl (mkFqsl package [s.name]) packages)) hm
      constructor
      · exact processServices_le packages package rest _ _ _ hboth.1
      · exact processServices_le packages package rest _ _ _ hboth.2
    · exact ih _ hmem'

/-- C6: indexing a file deposits, for every message field (at any nesting
depth) whose declared type is a message or an enum, a Symbol backlink from
the owning message's identity qualified with the field name onto the edge
list of the field's resolved type; and for every service method, a Symbol
backlink from the service identity qualified with the method name onto the
edge lists of both its request and its response type. -/
theorem claim_C6 (packages : List Str) (descriptor : FileDescriptorProto)
    (usages : UsageMap) :
    (∀ (inner : DescriptorProto) (pi : List Str), MsgInFile inner pi descriptor →
      ∀ f ∈ inner.field, (f.typ = some PType.Message ∨ f.typ = some PType.Enum) →
        Backlink.symbol
            ((SymbolLink.from_fqsl (mkFqsl descriptor.package (pi ++ [inner.name]))
              packages).set_property f.name) ∈
          usagesGet (ProtoFileDescriptorTemplate.from_descriptor descriptor packages usages).2
            (SymbolLink.from_fqsl f.type_name packages))
    ∧ (∀ s ∈ descriptor.service, ∀ m ∈ s.method,
        Backlink.symbol
            ((SymbolLink.from_fqsl (mkFqsl descriptor.package [s.name])
              packages).set_property m.name) ∈
          usagesGet (ProtoFileDescriptorTemplate.from_descriptor descriptor packages usages).2
            (SymbolLink.from_fqsl m.input_type packages)
        ∧ Backlink.symbol
            ((SymbolLink.from_fqsl (mkFqsl descriptor.package [s.name])
              packages).set_property m.name) ∈
          usagesGet (ProtoFileDescriptorTemplate.from_descriptor descriptor packages usages).2
            (SymbolLink.from_fqsl m.output_type packages)) := by
  constructor
  · intro inner pi hin f hf htyp
    obtain ⟨top, htop, hmsg⟩ := hin
    have htyp' : (SimpleField.from_descriptor f packages
        (SymbolLink.from_fqsl (mkFqsl descriptor.package (pi ++ [inner.name]))
          packages)).typ =
        FieldType.Symbol (SymbolLink.from_fqsl f.type_name packages) := by
      rcases htyp with h | h <;> simp [SimpleField.from_descriptor, h]
    have hall := fun u => mem_from_descriptor_of_field inner pi packages
      descriptor.package u f hf _ htyp'
    have hmem := mem_from_descriptor_of_msgIn hmsg packages descriptor.package _ _ hall
    have hfile := mem_from_descriptor_list_of_all top [] packages descriptor.package _ _
      hmem descriptor.message_type htop
    simp only [ProtoFileDescriptorTemplate.from_descriptor]
    exact hfile _
  · intro s hs m hm
    have h1 := mem_processServices packages descriptor.package s m hm
      descriptor.service usages hs
    constructor
    · simp only [ProtoFileDescriptorTemplate.from_descriptor]
      exact from_descriptor_list_le descriptor.message_type [] packages
        descriptor.package _ _ _ h1.1
    · simp only [ProtoFileDescriptorTemplate.from_descriptor]
      exact from_descriptor_list_le descriptor.message_type [] packages
        descriptor.package _ _ _ h1.2

/-- A message-typed field for the C6 witness file. -/
def fieldW : FieldDescriptorProto :=
  { name := ("b_field").toList, typ := some PType.Message,
    type_name := (".pkg.B").toList, proto3_optional := none, oneof_index := none }

/-- A message `A` owning `fieldW`, for the C6 witness file. -/
def msgW : DescriptorProto :=
  DescriptorProto.mk (("A").toList) [fieldW] DescriptorProtoList.nil []

/-- A method `M : .pkg.A -> .pkg.B`, for the C6 witness file. -/
def methodW : MethodDescriptorProto :=
  { name := ("M").toList, input_type := (".pkg.A").toList,
    output_type := (".pkg.B").toList }

/-- A service `S` owning `methodW`, for the C6 witness file. -/
def serviceW : ServiceDescriptorProto :=
  { name := ("S").toList, method := [methodW] }

/-- A one-message, one-service descriptor file in package `pkg`. -/
def fileW : FileDescriptorProto :=
  { name := ("demo.proto").toList, package := ("pkg").toList,
    message_type := DescriptorProtoList.cons msgW DescriptorProtoList.nil,
    enum_type := [], service := [serviceW] }

/-- C6 witness: indexing `fileW` records the field backlink of `A.b_field` on
`.pkg.B` and the method backlinks of `S::M` on `.pkg.A` and `.pkg.B`. -/
theorem claim_C6_witness :
    (Backlink.symbol
        ((SymbolLink.from_fqsl (mkFqsl (("pkg").toList) ([] ++ [msgW.name]))
          [("pkg").toList]).set_property fieldW.name) ∈
      usagesGet (ProtoFileDescriptorTemplate.from_descriptor fileW [("pkg").toList] []).2
        (SymbolLink.from_fqsl fieldW.type_name [("pkg").toList]))
    ∧ (Backlink.symbol
        ((SymbolLink.from_fqsl (mkFqsl (("pkg").toList) [serviceW.name])
          [("pkg").toList]).set_property methodW.name) ∈
      usagesGet (ProtoFileDescriptorTemplate.from_descriptor fileW [("pkg").toList] []).2
        (SymbolLink.from_fqsl methodW.input_type [("pkg").toList]))
    ∧ (Backlink.symbol
        ((SymbolLink.from_fqsl (mkFqsl (("pkg").toList) [serviceW.name])
          [("pkg").toList]).set_property methodW.name) ∈
      usagesGet (ProtoFileDescriptorTemplate.from_descriptor fileW [("pkg").toList] []).2
        (SymbolLink.from_fqsl methodW.output_type [("pkg").toList])) := by
  refine ⟨?_, ?_, ?_⟩
  · exact (claim_C6 [("pkg").toList] fileW []).1 msgW []
      ⟨msgW, by simp [fileW, DescriptorProtoList.toList], MsgIn.here msgW []⟩
      fieldW (by simp [msgW, DescriptorProto.field]) (Or.inl rfl)
  · exact ((claim_C6 [("pkg").toList] fileW []).2 serviceW (by simp [fileW])
      methodW (by simp [serviceW])).1
  · exact ((claim_C6 [("pkg").toList] fileW []).2 serviceW (by simp [fileW])
      methodW (by simp [serviceW])).2

end MdbookProtobuf
